import Mathlib

/-!
Verification of the open-addressing hash map in `hash_map_oa.py`
(quadratic probing, tombstone deletion, prime capacities).

Shallow embedding conventions:
* The dynamic array of buckets is a `List (Option (HashEntry V))`;
  `none` is an empty (never used) slot, matching the Python `None` entries.
* Python `while` loops that probe the table are modelled as recursion on a
  fuel argument; every probing loop in the source only inspects the slot at
  the current cursor, and the cursor sequence is periodic with period
  `capacity`, so fuel `capacity` reproduces the Python loop exactly:
  the fuelled loop returns `none` iff the Python loop never terminates.
* `put` calls `resize_table`, whose migration calls `put` again, and that
  nested call can itself resize (the recursion is real in the source), so
  `put`/`resize` carry an outer fuel for that mutual recursion; theorems
  take a `= some _` (successful execution) hypothesis or supply ample fuel.
* The Python float comparison `self.table_load() >= 0.5` with
  `table_load = size / capacity` is modelled by the exact integer test
  `capacity ≤ 2 * size`; `table_load_half_iff` below proves this equivalent
  to the rational inequality `1/2 ≤ size / capacity` (capacities are never
  0 and far below the range where double rounding could differ).
-/

namespace OA

/-- Modelled from the spec: the slot record (`HashEntry` from the external
`da_and_sll` module, not among the sources of this repository): an occupied
slot carries a key, a value and an `is_tombstone` flag which is `false` on
creation and is set by `remove`. -/
structure HashEntry (V : Type) where
  key : String
  value : V
  is_tombstone : Bool
  deriving DecidableEq

/-- The hash map state: the bucket array, its capacity, the hash function
supplied at construction, and the live-entry counter (`_buckets`,
`_capacity`, `_hash_function`, `_size` in the source). -/
structure HashMap (V : Type) where
  buckets : List (Option (HashEntry V))
  capacity : Nat
  hash_function : String → Nat
  size : Nat

variable {V : Type}

/-- Inner trial-division loop of `HashMap._is_prime`: test successive odd
factors while `factor ** 2 <= capacity`.  The loop runs at most
`√capacity / 2 + 1` times, so any fuel with `capacity < (factor + 2*fuel)²`
reproduces it exactly (the call site uses fuel `capacity`). -/
def isPrimeAux (capacity : Nat) : Nat → Nat → Bool
  | 0, _ => true
  | fuel + 1, factor =>
    if factor * factor ≤ capacity then
      if capacity % factor == 0 then false else isPrimeAux capacity fuel (factor + 2)
    else true

/-- Source method `HashMap._is_prime`. -/
def is_prime (capacity : Nat) : Bool :=
  if capacity == 2 || capacity == 3 then true
  else if capacity == 1 || capacity % 2 == 0 then false
  else isPrimeAux capacity capacity 3

/-- The `while not self._is_prime(capacity): capacity += 2` loop of
`HashMap._next_prime`.  the Bertrand postulate bounds the search by `c`
steps from an odd start `c`, so the fuel of the call site, `c + 1` suffices
(proved by `next_prime_is_prime` below). -/
def nextPrimeAux : Nat → Nat → Nat
  | 0, c => c
  | fuel + 1, c => if is_prime c then c else nextPrimeAux fuel (c + 2)

/-- Source method `HashMap._next_prime`: make the candidate odd, then scan odd candidates
for the next prime. -/
def next_prime (capacity : Nat) : Nat :=
  let c := if capacity % 2 == 0 then capacity + 1 else capacity
  nextPrimeAux (c + 1) c

/-- Source constructor `HashMap.__init__`: capacity is `_next_prime(capacity)`, buckets all
`None`, size 0. -/
def new (V : Type) (capacity : Nat) (function : String → Nat) : HashMap V :=
  { buckets := List.replicate (next_prime capacity) none
    capacity := next_prime capacity
    hash_function := function
    size := 0 }

/-- Source method `HashMap.get_size`. -/
def get_size (m : HashMap V) : Nat := m.size

/-- Source method `HashMap.get_capacity`. -/
def get_capacity (m : HashMap V) : Nat := m.capacity

/-- Source method `HashMap._hash`: scale the hash function output by the current
capacity. -/
def hash (m : HashMap V) (key : String) : Nat :=
  m.hash_function key % m.capacity

/-- Source method `HashMap.table_load`: `self._size / self._capacity` (exact rational in
place of the Python float). -/
def table_load (m : HashMap V) : Rat :=
  (m.size : Rat) / (m.capacity : Rat)

/-- Source method `HashMap.empty_buckets`: `self._capacity - self._size`. -/
def empty_buckets (m : HashMap V) : Nat := m.capacity - m.size

/-- The two cursor-update lines shared by every probing loop in the source:
`target_bucket += (probe + 1)**2 - probe**2; target_bucket %= self._capacity`. -/
def probeStep (capacity target probe : Nat) : Nat :=
  (target + ((probe + 1) ^ 2 - probe ^ 2)) % capacity

/-- The `while self._buckets[target_bucket]:` loop of `HashMap.put`:
stop at a tombstone or at the key (probe result `some`, with the updated
bucket list and whether size must grow), fall out of the loop at an empty
slot; `none` means the Python loop would still be running after `fuel`
iterations. -/
def putLoop (key : String) (value : V) (capacity : Nat) :
    Nat → List (Option (HashEntry V)) → Nat → Nat →
      Option (List (Option (HashEntry V)) × Bool)
  | 0, _, _, _ => none
  | fuel + 1, buckets, target, probe =>
    match buckets.getD target none with
    | none => some (buckets.set target (some ⟨key, value, false⟩), true)
    | some curr =>
      if curr.is_tombstone then
        some (buckets.set target (some ⟨key, value, false⟩), true)
      else if curr.key == key then
        some (buckets.set target (some { curr with value := value }), false)
      else
        putLoop key value capacity fuel buckets (probeStep capacity target probe) (probe + 1)

/-- The resize branch of `HashMap.resize_table`: `if not is_prime(nc):
capacity = next_prime(nc) else capacity = nc` (named so theorems can speak
about the adjusted capacity). -/
def capAdjust (new_capacity : Nat) : Nat :=
  if is_prime new_capacity then new_capacity else next_prime new_capacity

/-- The migration loop of `HashMap.resize_table` (`for index in
range(old_capacity): ...`), parameterised by the `put` operation used to
re-insert each live entry into the state being built. -/
def migrateAux (p : HashMap V → String → V → Option (HashMap V)) :
    List (Option (HashEntry V)) → HashMap V → Option (HashMap V)
  | [], m => some m
  | s :: rest, m =>
    match s with
    | some curr =>
      if curr.is_tombstone then migrateAux p rest m
      else
        match p m curr.key curr.value with
        | none => none
        | some m2 => migrateAux p rest m2
    | none => migrateAux p rest m

/-- Source method `HashMap.resize_table`, parameterised by the `put` used for migration:
refuse to shrink below `size`, adjust the capacity to a prime, allocate a
fresh table, reset size, then re-insert every live entry of the old table
in index order. -/
def resizeAux (p : HashMap V → String → V → Option (HashMap V))
    (m : HashMap V) (new_capacity : Nat) : Option (HashMap V) :=
  if new_capacity < m.size then some m
  else
    let m1 : HashMap V :=
      { buckets := List.replicate (capAdjust new_capacity) none
        capacity := capAdjust new_capacity
        hash_function := m.hash_function
        size := 0 }
    migrateAux p (m.buckets.take m.capacity) m1

/-- Source method `HashMap.put`: resize when the load factor is at least 0.5 (reaching
`resize_table`, whose migration re-enters `put` — hence the outer fuel),
then walk the probe sequence and insert/overwrite.  Defined by `Nat.rec`
on the fuel so that it reduces inside the kernel. -/
def put (fuel : Nat) : HashMap V → String → V → Option (HashMap V) :=
  Nat.rec (motive := fun _ => HashMap V → String → V → Option (HashMap V))
    (fun _ _ _ => none)
    (fun _ ih m key value =>
      let step :=
        if m.capacity ≤ 2 * m.size then resizeAux ih m (m.capacity * 2) else some m
      match step with
      | none => none
      | some m1 =>
        match putLoop key value m1.capacity m1.capacity m1.buckets (hash m1 key) 0 with
        | none => none
        | some pr =>
          some { m1 with buckets := pr.1,
                         size := if pr.2 then m1.size + 1 else m1.size })
    fuel

/-- Source method `HashMap.resize_table` proper: migration re-inserts with `put fuel`. -/
def resize_table (fuel : Nat) (m : HashMap V) (new_capacity : Nat) :
    Option (HashMap V) :=
  resizeAux (put fuel) m new_capacity

/-- The probe loop of `HashMap.get`: return the value at the first live
slot holding the key, report absence at an empty slot, skip everything
else.  `none` = the Python loop would still be running after `fuel`
iterations. -/
def getLoop (key : String) (capacity : Nat) :
    Nat → List (Option (HashEntry V)) → Nat → Nat → Option (Option V)
  | 0, _, _, _ => none
  | fuel + 1, buckets, target, probe =>
    match buckets.getD target none with
    | none => some none
    | some curr =>
      if curr.key == key && !curr.is_tombstone then some (some curr.value)
      else getLoop key capacity fuel buckets (probeStep capacity target probe) (probe + 1)

/-- Source method `HashMap.get`: report absent on an empty map, else probe. -/
def get (m : HashMap V) (key : String) : Option (Option V) :=
  if m.size == 0 then some none
  else getLoop key m.capacity m.capacity m.buckets (hash m key) 0

/-- The probe loop of `HashMap.contains_key`. -/
def containsLoop (key : String) (capacity : Nat) :
    Nat → List (Option (HashEntry V)) → Nat → Nat → Option Bool
  | 0, _, _, _ => none
  | fuel + 1, buckets, target, probe =>
    match buckets.getD target none with
    | none => some false
    | some curr =>
      if curr.key == key && !curr.is_tombstone then some true
      else containsLoop key capacity fuel buckets (probeStep capacity target probe) (probe + 1)

/-- Source method `HashMap.contains_key`. -/
def contains_key (m : HashMap V) (key : String) : Option Bool :=
  if m.size == 0 then some false
  else containsLoop key m.capacity m.capacity m.buckets (hash m key) 0

/-- The probe loop of `HashMap.remove`: tombstone the first live slot
holding the key (second component: whether an entry was removed), stop
silently at an empty slot. -/
def removeLoop (key : String) (capacity : Nat) :
    Nat → List (Option (HashEntry V)) → Nat → Nat →
      Option (List (Option (HashEntry V)) × Bool)
  | 0, _, _, _ => none
  | fuel + 1, buckets, target, probe =>
    match buckets.getD target none with
    | none => some (buckets, false)
    | some curr =>
      if curr.key == key && !curr.is_tombstone then
        some (buckets.set target (some { curr with is_tombstone := true }), true)
      else
        removeLoop key capacity fuel buckets (probeStep capacity target probe) (probe + 1)

/-- Source method `HashMap.remove` (note: no `size == 0` early return in the source). -/
def remove (m : HashMap V) (key : String) : Option (HashMap V) :=
  match removeLoop key m.capacity m.capacity m.buckets (hash m key) 0 with
  | none => none
  | some pr =>
    some { m with buckets := pr.1,
                  size := if pr.2 then m.size - 1 else m.size }

/-- Source method `HashMap.get_keys_and_values`: the `(key, value)` pairs of live slots
in index order over `range(self._capacity)`. -/
def get_keys_and_values (m : HashMap V) : List (String × V) :=
  (m.buckets.take m.capacity).filterMap fun s =>
    match s with
    | some curr => if curr.is_tombstone then none else some (curr.key, curr.value)
    | none => none

/-- Source method `HashMap.clear`: fresh all-empty table of the current capacity,
size 0. -/
def clear (m : HashMap V) : HashMap V :=
  { m with buckets := List.replicate m.capacity none, size := 0 }

/-- A mutating public operation, for stating reachability over operation
sequences. -/
inductive Op (V : Type) where
  | put (key : String) (value : V)
  | remove (key : String)
  | resize (new_capacity : Nat)
  | clear

/-- Run one mutating operation (`none` = a probe loop of the operation
diverges, or the put/resize fuel ran out). -/
def applyOp (fuel : Nat) (m : HashMap V) : Op V → Option (HashMap V)
  | Op.put k v => put fuel m k v
  | Op.remove k => remove m k
  | Op.resize nc => resize_table fuel m nc
  | Op.clear => some (clear m)

/-- Run a sequence of mutating operations. -/
def runOps (fuel : Nat) : HashMap V → List (Op V) → Option (HashMap V)
  | m, [] => some m
  | m, op :: rest =>
    match applyOp fuel m op with
    | none => none
    | some m2 => runOps fuel m2 rest

/-- A slot holding a live (non-tombstone) entry. -/
def liveSlot (s : Option (HashEntry V)) : Bool :=
  match s with
  | some curr => !curr.is_tombstone
  | none => false

/-- Number of live slots of a bucket list. -/
def liveCount (buckets : List (Option (HashEntry V))) : Nat :=
  buckets.countP liveSlot

/-- The keys of the live slots, in index order. -/
def liveKeys (buckets : List (Option (HashEntry V))) : List String :=
  buckets.filterMap fun s =>
    match s with
    | some curr => if curr.is_tombstone then none else some curr.key
    | none => none

/-- The slot visited at probe attempt `i`: iterate the cursor
update `probeStep` `i` times from the base index. -/
def probeIter (capacity base : Nat) : Nat → Nat
  | 0 => base
  | i + 1 => probeStep capacity (probeIter capacity base i) i

/-- Reading `l.getD j a` does not depend on the default when `j` is in bounds. -/
theorem getD_eq_of_lt {α : Type} (l : List α) (j : Nat) (a b : α)
    (h : j < l.length) : l.getD j a = l.getD j b := by
  induction l generalizing j with
  | nil => simp at h
  | cons x xs ih =>
    cases j with
    | zero => rfl
    | succ n => simpa using ih n (by simpa using h)

/-- How `countP` changes when one position of a list is overwritten. -/
theorem countP_set {α : Type} (p : α → Bool) :
    ∀ (l : List α) (j : Nat) (x : α),
      (l.set j x).countP p + (if p (l.getD j x) then 1 else 0) =
        l.countP p + (if p x then 1 else 0) := by
  intro l
  induction l with
  | nil => intro j x; simp
  | cons a as ih =>
    intro j x
    cases j with
    | zero => simp [List.countP_cons]; omega
    | succ n =>
      have h := ih n x
      simp only [List.set, List.countP_cons, List.getD_cons_succ]
      omega

/-- Claim C8: every probing operation advances the cursor through
`probeStep`, whose increment at attempt `p` is the odd number `2p+1`, and
the slot visited at attempt `i` is `(hash mod capacity + i²) mod capacity`. -/
theorem spec_c8 (capacity h i t p : Nat) :
    probeIter capacity (h % capacity) i = (h % capacity + i * i) % capacity ∧
    probeStep capacity t p = (t + (2 * p + 1)) % capacity := by
  constructor
  · induction i with
    | zero => simp [probeIter, Nat.mod_mod_of_dvd]
    | succ n ih =>
      have hd : (n + 1) ^ 2 - n ^ 2 = 2 * n + 1 := by
        have : (n + 1) ^ 2 = n ^ 2 + (2 * n + 1) := by ring
        omega
      have harg : h % capacity + n * n + (2 * n + 1) =
          h % capacity + (n + 1) * (n + 1) := by ring
      rw [probeIter, ih, probeStep, hd, Nat.mod_add_mod, harg]
  · have hd : (p + 1) ^ 2 - p ^ 2 = 2 * p + 1 := by
      have : (p + 1) ^ 2 = p ^ 2 + (2 * p + 1) := by ring
      omega
    rw [probeStep, hd]

/-- Well-formedness carried by every reachable state: the bucket list has
exactly `capacity` slots, the capacity is positive, and the size counter
equals the number of live slots. -/
def Inv (m : HashMap V) : Prop :=
  m.buckets.length = m.capacity ∧ 0 < m.capacity ∧ m.size = liveCount m.buckets

theorem nextPrimeAux_ge : ∀ fuel c, c ≤ nextPrimeAux fuel c := by
  intro fuel
  induction fuel with
  | zero => intro c; exact Nat.le_refl c
  | succ n ih =>
    intro c
    rw [nextPrimeAux]
    split
    · exact Nat.le_refl c
    · exact Nat.le_trans (by omega) (ih (c + 2))

theorem next_prime_pos (c : Nat) : 0 < next_prime c := by
  simp only [next_prime]
  split
  · have h := nextPrimeAux_ge (c + 1 + 1) (c + 1)
    omega
  · rename_i hodd
    have h := nextPrimeAux_ge (c + 1) c
    simp at hodd
    omega

theorem is_prime_two_le {n : Nat} (h : is_prime n = true) : 2 ≤ n := by
  rw [is_prime] at h
  split at h
  · rename_i hn
    simp at hn
    omega
  · split at h
    · exact absurd h (by simp)
    · rename_i h1 h2
      simp at h1 h2
      omega

theorem capAdjust_pos (nc : Nat) : 0 < capAdjust nc := by
  rw [capAdjust]
  split
  · rename_i h; have := is_prime_two_le h; omega
  · exact next_prime_pos nc

theorem liveCount_replicate (n : Nat) :
    liveCount (List.replicate n (none : Option (HashEntry V))) = 0 := by
  induction n with
  | zero => rfl
  | succ k ih => simp [liveCount, List.replicate, List.countP_cons, liveSlot, ih]

theorem probeStep_lt (capacity target probe : Nat) (h : 0 < capacity) :
    probeStep capacity target probe < capacity :=
  Nat.mod_lt _ h

/-- How the live count changes when one in-bounds slot is overwritten. -/
theorem liveCount_set (b : List (Option (HashEntry V))) (j : Nat)
    (x : Option (HashEntry V)) (hj : j < b.length) :
    liveCount (b.set j x) + (if liveSlot (b.getD j none) then 1 else 0) =
      liveCount b + (if liveSlot x then 1 else 0) := by
  have hc := countP_set liveSlot b j x
  rw [getD_eq_of_lt b j x none hj] at hc
  exact hc

/-- What a successful `put` probe does to the bucket list: the length is
preserved, and the live count grows by one exactly when the size counter
is to be incremented. -/
theorem putLoop_spec (key : String) (v : V) (cap : Nat) :
    ∀ fuel (b : List (Option (HashEntry V))) target probe b2 inc,
      b.length = cap → target < cap →
      putLoop key v cap fuel b target probe = some (b2, inc) →
      b2.length = cap ∧ liveCount b2 = liveCount b + (if inc then 1 else 0) := by
  intro fuel
  induction fuel with
  | zero =>
    intro b target probe b2 inc _ _ h
    exact absurd h (by simp [putLoop])
  | succ n ih =>
    intro b target probe b2 inc hlen htarget h
    rw [putLoop] at h
    split at h
    · rename_i hslot
      simp only [Option.some.injEq, Prod.mk.injEq] at h
      obtain ⟨hb2, hinc⟩ := h
      subst hb2
      subst hinc
      have hc := liveCount_set b target (some ⟨key, v, false⟩) (by omega)
      rw [hslot] at hc
      simp [liveSlot] at hc
      constructor
      · rw [List.length_set]; exact hlen
      · simp only [if_true]
        omega
    · rename_i curr hslot
      split at h
      · rename_i htomb
        simp only [Option.some.injEq, Prod.mk.injEq] at h
        obtain ⟨hb2, hinc⟩ := h
        subst hb2
        subst hinc
        have hc := liveCount_set b target (some ⟨key, v, false⟩) (by omega)
        rw [hslot] at hc
        simp [liveSlot, htomb] at hc
        constructor
        · rw [List.length_set]; exact hlen
        · simp only [if_true]
          omega
      · split at h
        · rename_i htomb hkey
          simp only [Option.some.injEq, Prod.mk.injEq] at h
          obtain ⟨hb2, hinc⟩ := h
          subst hb2
          subst hinc
          have hc := liveCount_set b target (some { curr with value := v }) (by omega)
          rw [hslot] at hc
          simp only [Bool.not_eq_true] at htomb
          simp [liveSlot, htomb] at hc
          constructor
          · rw [List.length_set]; exact hlen
          · simp [htomb]
            omega
        · exact ih b (probeStep cap target probe) (probe + 1) b2 inc hlen
            (probeStep_lt cap target probe (by omega)) h

/-- What a successful `remove` probe does to the bucket list. -/
theorem removeLoop_spec (key : String) (cap : Nat) :
    ∀ fuel (b : List (Option (HashEntry V))) target probe b2 removed,
      b.length = cap → target < cap →
      removeLoop key cap fuel b target probe = some (b2, removed) →
      b2.length = cap ∧
        (if removed then liveCount b2 + 1 = liveCount b else b2 = b) := by
  intro fuel
  induction fuel with
  | zero =>
    intro b target probe b2 removed _ _ h
    exact absurd h (by simp [removeLoop])
  | succ n ih =>
    intro b target probe b2 removed hlen htarget h
    rw [removeLoop] at h
    split at h
    · rename_i hslot
      simp only [Option.some.injEq, Prod.mk.injEq] at h
      obtain ⟨hb2, hrem⟩ := h
      subst hb2
      subst hrem
      simp [hlen]
    · rename_i curr hslot
      split at h
      · rename_i hmatch
        simp only [Option.some.injEq, Prod.mk.injEq] at h
        obtain ⟨hb2, hrem⟩ := h
        subst hb2
        subst hrem
        have hc := liveCount_set b target (some { curr with is_tombstone := true })
          (by omega)
        rw [hslot] at hc
        simp only [Bool.and_eq_true, beq_iff_eq, Bool.not_eq_eq_eq_not,
          Bool.not_true] at hmatch
        simp [liveSlot, hmatch.2] at hc
        constructor
        · rw [List.length_set]; exact hlen
        · simp only [if_true]
          omega
      · exact ih b (probeStep cap target probe) (probe + 1) b2 removed hlen
          (probeStep_lt cap target probe (by omega)) h

theorem put_zero (m : HashMap V) (key : String) (v : V) : put 0 m key v = none := rfl

theorem put_succ (fuel : Nat) (m : HashMap V) (key : String) (v : V) :
    put (fuel + 1) m key v =
      match
        (if m.capacity ≤ 2 * m.size then resizeAux (put fuel) m (m.capacity * 2)
         else some m) with
      | none => none
      | some m1 =>
        match putLoop key v m1.capacity m1.capacity m1.buckets (hash m1 key) 0 with
        | none => none
        | some pr =>
          some { m1 with buckets := pr.1,
                         size := if pr.2 then m1.size + 1 else m1.size } := rfl

theorem migrateAux_inv (p : HashMap V → String → V → Option (HashMap V))
    (hp : ∀ m key v m2, Inv m → p m key v = some m2 → Inv m2) :
    ∀ slots (m m2 : HashMap V), Inv m → migrateAux p slots m = some m2 → Inv m2 := by
  intro slots
  induction slots with
  | nil =>
    intro m m2 hm h
    simp only [migrateAux, Option.some.injEq] at h
    subst h
    exact hm
  | cons s rest ih =>
    intro m m2 hm h
    cases s with
    | none => exact ih m m2 hm (by simpa [migrateAux] using h)
    | some curr =>
      simp only [migrateAux] at h
      split at h
      · exact ih m m2 hm h
      · cases hput : p m curr.key curr.value with
        | none => rw [hput] at h; exact absurd h (by simp)
        | some m3 =>
          rw [hput] at h
          exact ih m3 m2 (hp m curr.key curr.value m3 hm hput) h

theorem resizeAux_inv (p : HashMap V → String → V → Option (HashMap V))
    (hp : ∀ m key v m2, Inv m → p m key v = some m2 → Inv m2)
    (m : HashMap V) (nc : Nat) (m2 : HashMap V)
    (hm : Inv m) (h : resizeAux p m nc = some m2) : Inv m2 := by
  simp only [resizeAux] at h
  split at h
  · simp only [Option.some.injEq] at h
    subst h
    exact hm
  · refine migrateAux_inv p hp _ _ _ ?_ h
    exact ⟨by simp, capAdjust_pos nc, by simp [liveCount_replicate]⟩

theorem put_inv :
    ∀ fuel (m : HashMap V) key v m2, Inv m → put fuel m key v = some m2 → Inv m2 := by
  intro fuel
  induction fuel with
  | zero =>
    intro m key v m2 _ h
    rw [put_zero] at h
    exact absurd h (by simp)
  | succ n ih =>
    intro m key v m2 hm h
    rw [put_succ] at h
    split at h
    · exact absurd h (by simp)
    · rename_i m1 hstep
      have hm1 : Inv m1 := by
        by_cases hload : m.capacity ≤ 2 * m.size
        · rw [if_pos hload] at hstep
          exact resizeAux_inv (put n) ih m (m.capacity * 2) m1 hm hstep
        · rw [if_neg hload] at hstep
          simp only [Option.some.injEq] at hstep
          subst hstep
          exact hm
      split at h
      · exact absurd h (by simp)
      · rename_i pr hpl
        simp only [Option.some.injEq] at h
        subst h
        obtain ⟨hlen, hcap, hsz⟩ := hm1
        obtain ⟨hl2, hc2⟩ := putLoop_spec key v m1.capacity m1.capacity m1.buckets
          (hash m1 key) 0 pr.1 pr.2 hlen (Nat.mod_lt _ hcap) hpl
        refine ⟨hl2, hcap, ?_⟩
        cases hb : pr.2 <;> simp [hb] at hc2 ⊢ <;> omega

theorem remove_inv (m : HashMap V) (key : String) (m2 : HashMap V)
    (hm : Inv m) (h : remove m key = some m2) : Inv m2 := by
  rw [remove] at h
  cases hrl : removeLoop key m.capacity m.capacity m.buckets (hash m key) 0 with
  | none => rw [hrl] at h; exact absurd h (by simp)
  | some pr =>
    rw [hrl] at h
    simp only [Option.some.injEq] at h
    subst h
    obtain ⟨hlen, hcap, hsz⟩ := hm
    obtain ⟨hl2, hc2⟩ := removeLoop_spec key m.capacity m.capacity m.buckets
      (hash m key) 0 pr.1 pr.2 hlen (Nat.mod_lt _ hcap) hrl
    refine ⟨hl2, hcap, ?_⟩
    cases hb : pr.2 <;> simp [hb] at hc2 ⊢
    · rw [hc2]; exact hsz
    · omega

theorem new_inv (V : Type) (c : Nat) (hf : String → Nat) : Inv (new V c hf) :=
  ⟨by simp [new], next_prime_pos c, by simp [new, liveCount_replicate]⟩

theorem clear_inv (m : HashMap V) (hm : Inv m) : Inv (clear m) :=
  ⟨by simp [clear], hm.2.1, by simp [clear, liveCount_replicate]⟩

theorem applyOp_inv (fuel : Nat) (m : HashMap V) (op : Op V) (m2 : HashMap V)
    (hm : Inv m) (h : applyOp fuel m op = some m2) : Inv m2 := by
  cases op with
  | put k v => exact put_inv fuel m k v m2 hm h
  | remove k => exact remove_inv m k m2 hm h
  | resize nc =>
    exact resizeAux_inv (put fuel) (fun mm kk vv mm2 => put_inv fuel mm kk vv mm2)
      m nc m2 hm h
  | clear =>
    simp only [applyOp, Option.some.injEq] at h
    subst h
    exact clear_inv m hm

theorem runOps_inv (fuel : Nat) :
    ∀ (ops : List (Op V)) (m m2 : HashMap V),
      Inv m → runOps fuel m ops = some m2 → Inv m2 := by
  intro ops
  induction ops with
  | nil =>
    intro m m2 hm h
    simp only [runOps, Option.some.injEq] at h
    subst h
    exact hm
  | cons op rest ih =>
    intro m m2 hm h
    simp only [runOps] at h
    cases hop : applyOp fuel m op with
    | none => rw [hop] at h; exact absurd h (by simp)
    | some m3 =>
      rw [hop] at h
      exact ih m3 m2 (applyOp_inv fuel m op m3 hm hop) h

/-- Claim C9: after any sequence of public mutating operations on a freshly
constructed map, the size counter equals the number of slots holding a
non-tombstone entry, so `get_size` reports exactly that count.  (The
observers do not touch the state at all, see the claim C10 theorem.) -/
theorem spec_c9 {V : Type} (fuel c : Nat) (hf : String → Nat)
    (ops : List (Op V)) (m2 : HashMap V)
    (h : runOps fuel (new V c hf) ops = some m2) :
    get_size m2 = liveCount m2.buckets :=
  (runOps_inv fuel ops (new V c hf) m2 (new_inv V c hf) h).2.2

theorem isPrimeAux_false (c : Nat) :
    ∀ fuel factor, isPrimeAux c fuel factor = false →
      ∃ g, factor ≤ g ∧ g * g ≤ c ∧ c % g = 0 := by
  intro fuel
  induction fuel with
  | zero => intro factor h; simp [isPrimeAux] at h
  | succ n ih =>
    intro factor h
    rw [isPrimeAux] at h
    split at h
    · rename_i hle
      split at h
      · rename_i hdvd
        exact ⟨factor, Nat.le_refl _, hle, by simpa using hdvd⟩
      · obtain ⟨g, hg1, hg2, hg3⟩ := ih (factor + 2) h
        exact ⟨g, by omega, hg2, hg3⟩
    · simp at h

theorem isPrimeAux_true (c : Nat) :
    ∀ fuel factor, 1 ≤ factor → c < (factor + 2 * fuel) ^ 2 →
      isPrimeAux c fuel factor = true →
      ∀ g, factor ≤ g → (g - factor) % 2 = 0 → g * g ≤ c → ¬ c % g = 0 := by
  intro fuel
  induction fuel with
  | zero =>
    intro factor _ hbound _ g hg _ hgg
    exfalso
    have h1 : factor * factor ≤ g * g := Nat.mul_le_mul hg hg
    have h2 : (factor + 2 * 0) ^ 2 = factor * factor := by ring
    omega
  | succ n ih =>
    intro factor hf hbound htrue g hg hpar hgg
    rw [isPrimeAux] at htrue
    split at htrue
    · split at htrue
      · simp at htrue
      · rename_i hle hdvd
        by_cases hgf : g = factor
        · subst hgf
          intro hmod
          simp [hmod] at hdvd
        · have hbound2 : c < (factor + 2 + 2 * n) ^ 2 := by
            have harg : factor + 2 + 2 * n = factor + 2 * (n + 1) := by ring
            rw [harg]
            exact hbound
          exact ih (factor + 2) (by omega) hbound2 htrue g (by omega) (by omega) hgg
    · rename_i hle
      exfalso
      have h1 : factor * factor ≤ g * g := Nat.mul_le_mul hg hg
      omega

/-- Source method `HashMap._is_prime` decides primality. -/
theorem is_prime_iff (n : Nat) : is_prime n = true ↔ Nat.Prime n := by
  rw [is_prime]
  split
  · rename_i h
    simp at h
    rcases h with h | h <;> subst h
    · simpa using Nat.prime_two
    · simpa using Nat.prime_three
  · rename_i hne23
    simp at hne23
    split
    · rename_i h
      simp at h
      constructor
      · intro hfalse; simp at hfalse
      · intro hp
        exfalso
        rcases h with h1 | heven
        · subst h1; exact Nat.not_prime_one hp
        · have h2 : 2 ∣ n := Nat.dvd_of_mod_eq_zero heven
          rcases hp.eq_one_or_self_of_dvd 2 h2 with h | h <;> omega
    · rename_i hnodd
      simp at hnodd
      have hn5 : 5 ≤ n := by omega
      constructor
      · intro htrue
        by_contra hnp
        have hq := Nat.minFac_prime (show n ≠ 1 by omega)
        have hqd := Nat.minFac_dvd n
        have hqs := Nat.minFac_sq_le_self (show 0 < n by omega) hnp
        have hq2 : n.minFac ≠ 2 := by
          intro h2
          rw [h2] at hqd
          obtain ⟨k, hk⟩ := hqd
          omega
        have hq3 : 3 ≤ n.minFac := by
          have := hq.two_le
          omega
        have hqodd : n.minFac % 2 = 1 := Nat.odd_iff.1 (hq.odd_of_ne_two hq2)
        have hqq : n.minFac * n.minFac ≤ n := by
          have := hqs
          rw [pow_two] at this
          exact this
        have hmod : n % n.minFac = 0 := by
          obtain ⟨k, hk⟩ := hqd
          nth_rewrite 1 [hk]
          exact Nat.mul_mod_right _ _
        exact isPrimeAux_true n n 3 (by omega) (by nlinarith) htrue n.minFac hq3
          (by omega) hqq hmod
      · intro hp
        by_contra hfalse
        rw [Bool.not_eq_true] at hfalse
        obtain ⟨g, hg3, hgg, hgmod⟩ := isPrimeAux_false n n 3 hfalse
        have hgdvd : g ∣ n := Nat.dvd_of_mod_eq_zero hgmod
        rcases hp.eq_one_or_self_of_dvd g hgdvd with h | h
        · omega
        · subst h
          nlinarith

theorem nextPrimeAux_is_prime :
    ∀ fuel c j, j ≤ fuel → is_prime (c + 2 * j) = true →
      is_prime (nextPrimeAux fuel c) = true := by
  intro fuel
  induction fuel with
  | zero =>
    intro c j hj hp
    have hj0 : j = 0 := by omega
    subst hj0
    simpa [nextPrimeAux] using hp
  | succ n ih =>
    intro c j hj hp
    rw [nextPrimeAux]
    split
    · rename_i h; exact h
    · rename_i hc
      cases j with
      | zero => exact absurd (by simpa using hp) hc
      | succ k =>
        refine ih (c + 2) k (by omega) ?_
        have harg : c + 2 + 2 * k = c + 2 * (k + 1) := by ring
        rw [harg]
        exact hp

theorem nextPrimeAux_min :
    ∀ fuel c k, is_prime k = true → c ≤ k → (k - c) % 2 = 0 →
      nextPrimeAux fuel c ≤ k := by
  intro fuel
  induction fuel with
  | zero => intro c k _ hck _; simpa [nextPrimeAux] using hck
  | succ n ih =>
    intro c k hk hck hpar
    rw [nextPrimeAux]
    split
    · exact hck
    · rename_i hc
      have hne : c ≠ k := by rintro rfl; exact hc hk
      exact ih (c + 2) k hk (by omega) (by omega)

/-- Source method `HashMap._next_prime` always lands on a prime (in particular the fuel
given to `nextPrimeAux` is sufficient, by the Bertrand postulate). -/
theorem next_prime_is_prime (c : Nat) : Nat.Prime (next_prime c) := by
  rw [← is_prime_iff]
  simp only [next_prime]
  set c2 := if c % 2 == 0 then c + 1 else c with hc2
  have hodd : c2 % 2 = 1 := by
    rw [hc2]
    split <;> rename_i h <;> simp at h <;> omega
  by_cases hc2p : is_prime c2 = true
  · exact nextPrimeAux_is_prime (c2 + 1) c2 0 (by omega) (by simpa using hc2p)
  · obtain ⟨p, hp, hpgt, hple⟩ := Nat.exists_prime_lt_and_le_two_mul c2 (by omega)
    by_cases h1 : c2 = 1
    · refine nextPrimeAux_is_prime (c2 + 1) c2 1 (by omega) ?_
      rw [h1]
      decide
    · have hc23 : 3 ≤ c2 := by omega
      have hpne2 : p ≠ 2 := by omega
      have hpodd : p % 2 = 1 := Nat.odd_iff.1 (hp.odd_of_ne_two hpne2)
      have hj : p = c2 + 2 * ((p - c2) / 2) := by omega
      refine nextPrimeAux_is_prime (c2 + 1) c2 ((p - c2) / 2) (by omega) ?_
      rw [← hj]
      exact (is_prime_iff p).2 hp

theorem next_prime_ge (c : Nat) : c ≤ next_prime c := by
  simp only [next_prime]
  split
  · have h := nextPrimeAux_ge (c + 1 + 1) (c + 1)
    omega
  · exact nextPrimeAux_ge (c + 1) c

theorem next_prime_min (c p : Nat) (hp : Nat.Prime p) (hcp : c ≤ p)
    (hodd : p % 2 = 1) : next_prime c ≤ p := by
  simp only [next_prime]
  split
  · rename_i h
    simp at h
    exact nextPrimeAux_min (c + 1 + 1) (c + 1) p ((is_prime_iff p).2 hp)
      (by omega) (by omega)
  · rename_i h
    simp at h
    exact nextPrimeAux_min (c + 1) c p ((is_prime_iff p).2 hp) hcp (by omega)

/-- Claim C7 as stated is false: construction from requested capacity 2
yields capacity 3, although 2 itself is the smallest prime ≥ 2. -/
theorem spec_c7_counterexample :
    get_capacity (new Int 2 (fun _ => 0)) = 3 ∧ Nat.Prime 2 :=
  ⟨rfl, by norm_num⟩

/-- Claim C7 (amended: for every requested capacity ≥ 3): construction
yields the smallest prime ≥ the requested capacity. -/
theorem spec_c7 (V : Type) (c : Nat) (hf : String → Nat) (h3 : 3 ≤ c) :
    Nat.Prime (get_capacity (new V c hf)) ∧ c ≤ get_capacity (new V c hf) ∧
      ∀ p, Nat.Prime p → c ≤ p → get_capacity (new V c hf) ≤ p := by
  have hcap : get_capacity (new V c hf) = next_prime c := rfl
  rw [hcap]
  refine ⟨next_prime_is_prime c, next_prime_ge c, ?_⟩
  intro p hp hcp
  have hpne2 : p ≠ 2 := by omega
  exact next_prime_min c p hp hcp (Nat.odd_iff.1 (hp.odd_of_ne_two hpne2))

theorem spec_c7_witness :
    3 ≤ 10 ∧ Nat.Prime (get_capacity (new Int 10 (fun _ => 0))) ∧
      10 ≤ get_capacity (new Int 10 (fun _ => 0)) ∧
      get_capacity (new Int 10 (fun _ => 0)) ≤ 11 ∧
      get_capacity (new Int 10 (fun _ => 0)) = 11 :=
  ⟨by norm_num, (spec_c7 Int 10 (fun _ => 0) (by norm_num)).1,
    (spec_c7 Int 10 (fun _ => 0) (by norm_num)).2.1,
    (spec_c7 Int 10 (fun _ => 0) (by norm_num)).2.2 11 (by norm_num) (by norm_num),
    rfl⟩

theorem table_load_half_iff (m : HashMap V) (h : 0 < m.capacity) :
    (1 / 2 : Rat) ≤ table_load m ↔ m.capacity ≤ 2 * m.size := by
  rw [table_load, div_le_div_iff₀ (by norm_num : (0 : Rat) < 2)
    (by exact_mod_cast h), one_mul]
  have hsw : ((m.capacity : Rat) ≤ (m.size : Rat) * 2) ↔
      ((m.capacity : Rat) ≤ ((2 * m.size : Nat) : Rat)) := by
    push_cast
    rw [mul_comm]
  rw [hsw, Nat.cast_le]

/-- A `put` on a state strictly below the load threshold does not resize:
the capacity is unchanged and the size grows by at most one. -/
theorem put_no_resize (fuel : Nat) (m : HashMap V) (key : String) (v : V)
    (m2 : HashMap V) (hload : ¬ m.capacity ≤ 2 * m.size)
    (h : put fuel m key v = some m2) :
    m2.capacity = m.capacity ∧ m2.size ≤ m.size + 1 := by
  cases fuel with
  | zero => rw [put_zero] at h; exact absurd h (by simp)
  | succ n =>
    rw [put_succ] at h
    split at h
    · exact absurd h (by simp)
    · rename_i m1 hstep
      rw [if_neg hload] at hstep
      simp only [Option.some.injEq] at hstep
      subst hstep
      split at h
      · exact absurd h (by simp)
      · rename_i pr hpl
        simp only [Option.some.injEq] at h
        subst h
        refine ⟨rfl, ?_⟩
        show (if pr.2 then m.size + 1 else m.size) ≤ m.size + 1
        split <;> omega

/-- While the migration invariant `2·(size + remaining live entries) ≤
capacity + 1` holds, no migration insert ever reaches the resize branch,
so the capacity built by `resize_table` survives the whole migration. -/
theorem migrateAux_capacity (fuel : Nat) :
    ∀ (slots : List (Option (HashEntry V))) (m m2 : HashMap V),
      2 * (m.size + liveCount slots) ≤ m.capacity + 1 →
      migrateAux (put fuel) slots m = some m2 →
      m2.capacity = m.capacity := by
  intro slots
  induction slots with
  | nil =>
    intro m m2 _ h
    simp only [migrateAux, Option.some.injEq] at h
    subst h
    rfl
  | cons s rest ih =>
    intro m m2 hb h
    cases s with
    | none =>
      have hlc : liveCount ((none : Option (HashEntry V)) :: rest) = liveCount rest := by
        simp [liveCount, List.countP_cons, liveSlot]
      exact ih m m2 (by omega) (by simpa [migrateAux] using h)
    | some curr =>
      simp only [migrateAux] at h
      split at h
      · rename_i htomb
        have hlc : liveCount (some curr :: rest) = liveCount rest := by
          simp [liveCount, List.countP_cons, liveSlot, htomb]
        exact ih m m2 (by omega) h
      · rename_i htomb
        rw [Bool.not_eq_true] at htomb
        have hlc : liveCount (some curr :: rest) = liveCount rest + 1 := by
          simp [liveCount, List.countP_cons, liveSlot, htomb]
        cases hput : put fuel m curr.key curr.value with
        | none => rw [hput] at h; exact absurd h (by simp)
        | some m3 =>
          rw [hput] at h
          have hnr : ¬ m.capacity ≤ 2 * m.size := by omega
          obtain ⟨hc3, hs3⟩ := put_no_resize fuel m curr.key curr.value m3 hnr hput
          have hrec := ih m3 m2 (by rw [hc3]; omega) h
          rw [hrec, hc3]

/-- Claim C4 (amended): when the adjusted target capacity, written cap2 (`nc` if
prime, else the next prime above `nc`) satisfies 2·(live entries) ≤
cap2 + 1, the migration never re-triggers an automatic resize, and a
successful `resize_table(nc)` with `nc ≥ size` yields exactly capacity
cap2.  (Automatic resizes, with `nc = 2·capacity ≥ 2·size`, always
satisfy this bound.)  Without the bound the claim is false, see the
counterexample. -/
theorem spec_c4 {V : Type} (fuel : Nat) (m : HashMap V) (nc : Nat)
    (m2 : HashMap V) (hsz : m.size ≤ nc)
    (hroom : 2 * liveCount (m.buckets.take m.capacity) ≤ capAdjust nc + 1)
    (h : resize_table fuel m nc = some m2) :
    get_capacity m2 = capAdjust nc := by
  simp only [resize_table, resizeAux] at h
  split at h
  · rename_i hlt
    exact absurd hlt (by omega)
  · exact migrateAux_capacity fuel (m.buckets.take m.capacity) _ m2
      (by simpa using hroom) h

def hf0 : String → Nat := fun _ => 0

def ka : String := "a"

def kb : String := "b"

def w0 : String := ""

def w2 : String := "aa"

def w3 : String := "aaa"

def w4 : String := "aaaa"

def w5 : String := "aaaaa"

def w6 : String := "aaaaaa"

def w7 : String := "aaaaaaa"

def w8 : String := "aaaaaaaa"

def w9 : String := "aaaaaaaaa"

def w10 : String := "aaaaaaaaaa"

def c4pre : HashMap Int :=
  (runOps 9 (new Int 3 hf0) [Op.put ka 1, Op.put kb 2]).getD (new Int 3 hf0)

/-- Claim C4 as stated is false: `c4pre` is reachable (two puts on a
requested-capacity-3 map), has size 2, and `resize_table(2)` — with 2 ≥
size and 2 prime — ends with capacity 5, not 2, because the second
migration insert sees load 1/2 ≥ 0.5 and re-triggers an automatic resize. -/
theorem spec_c4_counterexample :
    runOps 9 (new Int 3 hf0) [Op.put ka 1, Op.put kb 2] = some c4pre ∧
      get_size c4pre = 2 ∧ Nat.Prime 2 ∧
      (resize_table 9 c4pre 2).map get_capacity = some 5 :=
  ⟨rfl, rfl, by norm_num, rfl⟩

theorem spec_c4_witness :
    get_size c4pre ≤ 7 ∧
      2 * liveCount (c4pre.buckets.take c4pre.capacity) ≤ capAdjust 7 + 1 ∧
      get_capacity ((resize_table 9 c4pre 7).getD c4pre) = capAdjust 7 :=
  ⟨by decide, by decide,
    spec_c4 9 c4pre 7 ((resize_table 9 c4pre 7).getD c4pre) (by decide)
      (by decide) rfl⟩

def c1ops : List (Op Int) := [Op.put ka 1, Op.put kb 2, Op.remove ka, Op.put kb 3]

def c1m : HashMap Int := (runOps 9 (new Int 11 hf0) c1ops).getD (new Int 11 hf0)

def c1m2 : HashMap Int := (remove c1m kb).getD c1m

def c6m2 : HashMap Int := (remove c1m2 kb).getD c1m2

def c2pre : HashMap Int :=
  (runOps 9 (new Int 11 hf0) [Op.put ka 1, Op.put kb 2, Op.remove ka]).getD
    (new Int 11 hf0)

def c3post : HashMap Int := (resize_table 9 c1m 13).getD c1m

/-- Claim C1: the put-then-get half holds, but the remove half is false on
the code.  `c1m` is reachable (put a, put b, remove a, put b — all hashes
collide), holds key b live, yet after `remove(b)` the key is still
reported present with its older value, because the second `put(b)`
re-used the tombstone left by key a and left a duplicate of b further along the probe
chain.  (`get_size` does decrease by exactly 1, as claimed.) -/
theorem spec_c1 :
    runOps 9 (new Int 11 hf0) c1ops = some c1m ∧
      contains_key c1m kb = some true ∧
      remove c1m kb = some c1m2 ∧
      get_size c1m2 = get_size c1m - 1 ∧
      get c1m2 kb = some (some 2) ∧
      contains_key c1m2 kb = some true :=
  ⟨rfl, rfl, rfl, rfl, rfl, rfl⟩

/-- Claim C2: false on the code.  From the reachable state `c2pre`
(size 1, key b live), `put(b, 3)` bumps the size to 2 although b was
already in the map, and the size then exceeds the number of distinct live
keys (1): the put landed on the tombstone of key a before reaching b. -/
theorem spec_c2 :
    runOps 9 (new Int 11 hf0) [Op.put ka 1, Op.put kb 2, Op.remove ka] =
        some c2pre ∧
      contains_key c2pre kb = some true ∧
      get_size c2pre = 1 ∧
      put 9 c2pre kb 3 = some c1m ∧
      get_size c1m = 2 ∧
      (liveKeys c1m.buckets).dedup.length = 1 :=
  ⟨rfl, rfl, rfl, rfl, rfl, by decide⟩

/-- Claim C3: false on the code.  The reachable state `c1m` holds the
pairs {(b,3), (b,2)} (a duplicate produced by tombstone reuse); the manual
resize to 13 collapses the duplicate, so the pair (b,3) is present before
the resize and absent after it — the exported sets differ. -/
theorem spec_c3 :
    get_size c1m ≤ 13 ∧
      resize_table 9 c1m 13 = some c3post ∧
      (kb, (3 : Int)) ∈ get_keys_and_values c1m ∧
      (kb, (3 : Int)) ∉ get_keys_and_values c3post :=
  ⟨by decide, rfl, by decide, by decide⟩

/-- Claim C6: false on the code.  On the reachable duplicate state `c1m`,
one `remove(b)` leaves size 1 with b still present; a second `remove(b)`
moves to size 0 with b absent — the two states are observably different. -/
theorem spec_c6 :
    remove c1m kb = some c1m2 ∧
      remove c1m2 kb = some c6m2 ∧
      get_size c1m2 = 1 ∧
      get_size c6m2 = 0 ∧
      contains_key c1m2 kb = some true ∧
      contains_key c6m2 kb = some false :=
  ⟨rfl, rfl, rfl, rfl, rfl, rfl⟩

/-- A slot at which a probe for `key` neither stops with a hit (live entry
with that key) nor with a miss (empty slot). -/
def stuckSlot (key : String) (s : Option (HashEntry V)) : Bool :=
  match s with
  | none => false
  | some curr => !(curr.key == key && !curr.is_tombstone)

/-- If every slot of the table lets the probe for `key` pass (no empty
slot, no live hit), the `get` probe loop runs forever: it returns `none`
(fuel exhausted) for every fuel. -/
theorem getLoop_stuck (key : String) (cap : Nat) (b : List (Option (HashEntry V)))
    (hcap : 0 < cap)
    (hb : ∀ t, t < cap → stuckSlot key (b.getD t none) = true) :
    ∀ fuel target probe, target < cap →
      getLoop key cap fuel b target probe = none := by
  intro fuel
  induction fuel with
  | zero => intro target probe _; rfl
  | succ n ih =>
    intro target probe ht
    rw [getLoop]
    have hs := hb target ht
    cases hslot : b.getD target none with
    | none => rw [hslot] at hs; simp [stuckSlot] at hs
    | some curr =>
      rw [hslot] at hs
      simp only [hslot]
      have hs2 : (curr.key == key && !curr.is_tombstone) = false := by
        cases hb2 : (curr.key == key && !curr.is_tombstone) with
        | false => rfl
        | true => exfalso; simp [stuckSlot, hb2] at hs
      simp only [hs2, Bool.false_eq_true, if_false]
      exact ih (probeStep cap target probe) (probe + 1) (probeStep_lt cap target probe hcap)

def c5ops : List (Op Int) :=
  [Op.put w0 0, Op.put ka 1, Op.put w2 2, Op.put w3 3, Op.put w4 4,
   Op.remove w0, Op.remove ka, Op.remove w2, Op.remove w3, Op.remove w4,
   Op.put w5 5, Op.put w6 6, Op.put w7 7, Op.put w8 8,
   Op.put w9 9,
   Op.remove w5, Op.remove w6, Op.remove w7, Op.remove w8,
   Op.remove w9,
   Op.put w10 10]

def c5m : HashMap Int :=
  (runOps 30 (new Int 10 String.length) c5ops).getD (new Int 10 String.length)

/-- Claim C5: false on the code.  The state `c5m` is reachable with the
length hash function (ten tombstones fill slots 0–9 and one live entry
sits in slot 10; the load factor never reached 0.5 so no resize occurred).
On it, `get("")` diverges: the probe cycle from slot 0 visits only
tombstoned slots, never an empty slot or a hit, so the probe loop returns
fuel-exhaustion for every fuel — the Python loop never terminates, rather
than stopping within `capacity` probes. -/
theorem spec_c5 :
    runOps 30 (new Int 10 String.length) c5ops = some c5m ∧
      get_size c5m ≠ 0 ∧
      get c5m w0 = none ∧
      ∀ fuel, getLoop w0 c5m.capacity fuel c5m.buckets (hash c5m w0) 0 = none := by
  refine ⟨rfl, by decide, rfl, ?_⟩
  intro fuel
  exact getLoop_stuck w0 c5m.capacity c5m.buckets (by decide) (by decide)
    fuel (hash c5m w0) 0 (by decide)

/-- The result of one observer call: the paired state is what the method
leaves behind, the second component what it returns. -/
inductive ObsResult (V : Type) where
  | val (r : Option (Option V))
  | flag (r : Option Bool)
  | num (r : Nat)
  | load (r : Rat)
  | pairs (r : List (String × V))

/-- The observer operations of the public interface. -/
inductive ObsOp where
  | get (key : String)
  | contains (key : String)
  | size
  | capacity
  | load
  | empties
  | pairs

/-- Run one observer, returning the state it leaves behind together with
its result.  None of the translated method bodies writes to `_buckets`,
`_capacity` or `_size` (the probe loops of `get`/`contains_key` only read
the slot under the cursor), so the state component is the input state. -/
def applyObs (m : HashMap V) : ObsOp → HashMap V × ObsResult V
  | ObsOp.get k => (m, ObsResult.val (get m k))
  | ObsOp.contains k => (m, ObsResult.flag (contains_key m k))
  | ObsOp.size => (m, ObsResult.num (get_size m))
  | ObsOp.capacity => (m, ObsResult.num (get_capacity m))
  | ObsOp.load => (m, ObsResult.load (table_load m))
  | ObsOp.empties => (m, ObsResult.num (empty_buckets m))
  | ObsOp.pairs => (m, ObsResult.pairs (get_keys_and_values m))

/-- Claim C10: every observer (`get`, `contains_key`, `get_size`,
`get_capacity`, `table_load`, `empty_buckets`, `get_keys_and_values`)
leaves the map state — buckets, size, capacity — unchanged. -/
theorem spec_c10 (m : HashMap V) (op : ObsOp) : (applyObs m op).1 = m := by
  cases op <;> rfl

theorem spec_c9_witness :
    runOps 9 (new Int 11 hf0) c1ops = some c1m ∧
      get_size c1m = liveCount c1m.buckets :=
  ⟨rfl, spec_c9 9 11 hf0 c1ops c1m rfl⟩

end OA
